import Mathlib

/-!
Shallow embedding of the ACO shortest-path program.

This file embeds the Python sources `aco.py`, `graph_parser.py` and the
`main.py` wiring of the repository into Lean, and proves properties of the
embedded definitions.

Conventions of the embedding:
* Node identifiers are a type parameter `V` with decidable equality
  (the source uses strings; nothing in the algorithm depends on that).
* Python floats are modelled as rationals `ℚ`; `float('inf')` appears only
  as the absent case of an `Option ℚ` goal distance.
* Python dicts are modelled as association lists; lookup finds the first
  matching key, insertion of a fresh key appends at the end (dict insertion
  order) and update rewrites the first occurrence in place.
* A raised Python exception (`KeyError`, `ZeroDivisionError`, `TypeError`)
  is modelled as an `Option`-style error value: `FPResult.err` inside the
  ant, `none` for the colony-level `run`.
* `random.choice(lst)` is modelled as indexing `lst` by a supplied natural
  number modulo the list length; ants receive a stream `Nat → Nat` of such
  numbers, one per loop step, and the colony receives one stream per
  (iteration, ant) pair.
-/

namespace ACO

variable {V : Type} [DecidableEq V]

/-- First-match association list lookup (Python `d[k]` / `d.get(k)`). -/
def alookup : List (V × β) → V → Option β
  | [], _ => none
  | (k, v) :: t, a => if k = a then some v else alookup t a

/-- Update the first occurrence of a key, appending the binding at the end
when the key is absent (Python `d[k] = v` semantics). -/
def aset : List (V × β) → V → β → List (V × β)
  | [], a, b => [(a, b)]
  | (k, v) :: t, a, b => if k = a then (a, b) :: t else (k, v) :: aset t a b

/-- `random.choice` given one draw `r` of randomness: element `r mod length`,
`none` on the empty list (Python raises there; the source always guards). -/
def choice (r : ℕ) (l : List α) : Option α :=
  l.get? (r % l.length)

/-- Keys of the Python dict `distances`.  `get_distance_dict` produces
`(from_node, to_node)` tuple keys; the ant tests membership of the plain
target id `end`, so both key shapes occur in the program. -/
inductive PKey (V : Type) where
  | str (s : V)
  | pair (a b : V)
deriving DecidableEq

/-- Values of the `distances` dict: `get_distance_dict` stores numbers; the
ant's code would only ever read a nested table `distances[end][n]`. -/
inductive PVal (V : Type) where
  | num (q : ℚ)
  | table (t : List (V × ℚ))
deriving DecidableEq

/-- The `distances` argument threaded from `main.py` into `Ant`. -/
abbrev Distances (V : Type) := List (PKey V × PVal V)

/-- The graph consumed by `aco.py`: node id to neighbour/weight adjacency.
The coordinate component of the parsed node data is never read by the
optimizer and is omitted. -/
abbrev Graph (V : Type) := List (V × List (V × ℚ))

/-- Membership test `end in self.distances` (the key is the bare id). -/
def memDist (d : Distances V) (k : PKey V) : Bool :=
  (alookup d k).isSome

/-- `goal_distance` of `_greedy_selection` (lines 138-141 of `aco.py`):
`distances[end][neighbor]` when both memberships hold, else infinite,
modelled as `none`.  (A `num` value at key `end` could not be subscripted in
Python; it is unreachable for data built by `get_distance_dict` and is
modelled as no entry.) -/
def goalDistance (d : Distances V) (e n : V) : Option ℚ :=
  match alookup d (PKey.str e) with
  | some (PVal.table t) => alookup t n
  | _ => none

/-- `heuristic = 1.0 / (goal_distance + edge_cost + 1.0)` where an infinite
goal distance gives `1/inf = 0` exactly as in Python float arithmetic. -/
def heurVal (gd : Option ℚ) (c : ℚ) : ℚ :=
  match gd with
  | none => 0
  | some q => 1 / (q + c + 1)

/-- The per-ant mode bookkeeping locals of `Ant.find_path`. -/
structure ModeSt where
  swp : ℕ
  lastCount : ℕ
  escapeMode : Bool
  escapeSteps : ℕ
deriving DecidableEq

/-- Transient ant state (`self.path`, `self.visited`, `self.total_cost`,
`self.recent_nodes`, the loop variable `current` and the mode locals).
The visited set is a duplicate-free list grown at the end. -/
structure AntState (V : Type) where
  path : List V
  visited : List V
  totalCost : ℚ
  recentNodes : List V
  current : V
  mode : ModeSt
deriving DecidableEq

/-- Lines 121-125: the three priority tiers of `_greedy_selection`. -/
def tierUnvisited (s : AntState V) (avail : List (V × ℚ)) : List (V × ℚ) :=
  avail.filter (fun p => decide (p.1 ∉ s.visited))

def tierVisitedNonRecent (s : AntState V) (avail : List (V × ℚ)) : List (V × ℚ) :=
  avail.filter (fun p => decide (p.1 ∈ s.visited ∧ p.1 ∉ s.recentNodes))

def tierVisitedRecent (s : AntState V) (avail : List (V × ℚ)) : List (V × ℚ) :=
  avail.filter (fun p => decide (p.1 ∈ s.visited ∧ p.1 ∈ s.recentNodes))

/-- Lines 127-132: candidates come from the highest non-empty tier. -/
def activeTier (s : AntState V) (avail : List (V × ℚ)) : List (V × ℚ) :=
  let u := tierUnvisited s avail
  if ¬ u.isEmpty then u
  else
    let vnr := tierVisitedNonRecent s avail
    if ¬ vnr.isEmpty then vnr else tierVisitedRecent s avail

/-- Lines 134-149: the accumulation loop over the candidates, carrying
`best_candidates` and `best_heuristic`.  A strictly better heuristic resets
the list; a heuristic within `1e-6` of the current best is appended. -/
def bestLoop (d : Distances V) (e : V) :
    List (V × ℚ) → List V → ℚ → List V × ℚ
  | [], best, bh => (best, bh)
  | (n, c) :: rest, best, bh =>
    let h := heurVal (goalDistance d e n) c
    if bh < h then bestLoop d e rest [n] h
    else if |h - bh| < 1 / 1000000 then bestLoop d e rest (best ++ [n]) bh
    else bestLoop d e rest best bh

/-- `Ant._greedy_selection` (lines 109-151).  Note that the function reads
neither the pheromone field nor `alpha`/`beta`: the Python method stores
them on `self` but never uses them. -/
def greedySelection (d : Distances V) (r : ℕ) (e : V) (s : AntState V)
    (avail : List (V × ℚ)) : Option V :=
  choice r (bestLoop d e (activeTier s avail) [] (-1)).1

/-- Ordering on optional goal distances used by the escape sort, with a
missing entry counting as `float('inf')`. -/
def leKey : Option ℚ → Option ℚ → Bool
  | some a, some b => a ≤ b
  | some _, none => true
  | none, some _ => false
  | none, none => true

/-- Stable insertion for the ascending-by-goal-distance sort. -/
def insKey (k : V → Option ℚ) (x : V) : List V → List V
  | [] => [x]
  | y :: ys => if leKey (k x) (k y) then x :: y :: ys else y :: insKey k x ys

/-- `list.sort(key=goal_distance)`: stable ascending sort. -/
def sortByKey (k : V → Option ℚ) (l : List V) : List V :=
  l.foldr (insKey k) []

/-- Lines 182-183: `last_visit_index = len(path) - 1 - path[::-1].index(n)`
and `distance_from_last_visit = len(path) - last_visit_index`. -/
def distFromLastVisit (path : List V) (n : V) : ℕ :=
  path.length - (path.length - 1 - path.reverse.indexOf n)

/-- Line 189-190: sort descending by distance (stable) and take the head,
i.e. the first entry attaining the maximal distance. -/
def maxBySnd : List (V × ℕ) → Option (V × ℕ)
  | [] => none
  | x :: xs => some (xs.foldl (fun b y => if b.2 < y.2 then y else b) x)

/-- `Ant._aggressive_escape` (lines 153-192). -/
def aggressiveEscape (d : Distances V) (r : ℕ) (e : V) (s : AntState V)
    (avail : List (V × ℚ)) : Option V :=
  let unvisited := (tierUnvisited s avail).map Prod.fst
  if ¬ unvisited.isEmpty then
    if memDist d (PKey.str e) then
      let sorted := sortByKey (fun n => goalDistance d e n) unvisited
      choice r (sorted.take (min 3 sorted.length))
    else choice r unvisited
  else
    let vwd := avail.filterMap
      (fun p => if p.1 ∈ s.path then some (p.1, distFromLastVisit s.path p.1) else none)
    match maxBySnd vwd with
    | some x => some x.1
    | none => choice r (avail.map Prod.fst)

/-- Lines 67-75: progress tracking.  The visited count is compared with the
count recorded at the last growth; growth resets the stagnation counter and
leaves escape mode. -/
def progressTrack (m : ModeSt) (visitedCount : ℕ) : ModeSt :=
  if visitedCount = m.lastCount then { m with swp := m.swp + 1 }
  else { swp := 0, lastCount := visitedCount, escapeMode := false, escapeSteps := 0 }

/-- Lines 76-81: once the stagnation counter exceeds 100, enter escape mode
(resetting its step counter) and tick the escape step counter. -/
def stagnationTrigger (m : ModeSt) : ModeSt :=
  if 100 < m.swp then
    if ¬ m.escapeMode then { m with escapeMode := true, escapeSteps := 1 }
    else { m with escapeSteps := m.escapeSteps + 1 }
  else m

/-- Lines 83-90: escape selection is used while in escape mode with fewer
than 200 escape steps; otherwise greedy selection is used, and an exhausted
escape budget drops back to normal mode. -/
def policyAndExit (m : ModeSt) : Bool × ModeSt :=
  if m.escapeMode ∧ m.escapeSteps < 200 then (true, m)
  else
    (false,
      if m.escapeMode ∧ 200 ≤ m.escapeSteps then
        { m with escapeMode := false, escapeSteps := 0 }
      else m)

/-- `self.visited.add(n)` on the list model of the Python set. -/
def addVisited (v : List V) (n : V) : List V :=
  if n ∈ v then v else v ++ [n]

/-- Outcome of `Ant.find_path`: a successful path with its accumulated cost,
the `None` return, or a raised exception (`KeyError`/`TypeError`). -/
inductive FPResult (V : Type) where
  | found (path : List V) (cost : ℚ)
  | nopath
  | err
deriving DecidableEq

/-- The `for step in range(max_steps)` loop of `Ant.find_path`
(lines 56-107), with `fuel` the remaining iterations and `step` the current
loop index (used to index the randomness stream). -/
def findPathLoop (g : Graph V) (d : Distances V) (rand : ℕ → ℕ) (e : V) :
    ℕ → ℕ → AntState V → FPResult V
  | 0, _, _ => FPResult.nopath
  | fuel + 1, step, s =>
    if s.current = e then FPResult.found s.path s.totalCost
    else
      match alookup g s.current with
      | none => FPResult.err
      | some neighbours =>
        let available := neighbours.filter (fun p => (alookup g p.1).isSome)
        if available.isEmpty then FPResult.nopath
        else
          let m1 := progressTrack s.mode s.visited.length
          let m2 := stagnationTrigger m1
          let pe := policyAndExit m2
          let nextOpt :=
            if pe.1 then aggressiveEscape d (rand step) e s available
            else greedySelection d (rand step) e s available
          match nextOpt with
          | none => FPResult.nopath
          | some nxt =>
            match alookup neighbours nxt with
            | none => FPResult.err
            | some c =>
              let rec0 := s.recentNodes ++ [nxt]
              findPathLoop g d rand e fuel (step + 1)
                { path := s.path ++ [nxt]
                  visited := addVisited s.visited nxt
                  totalCost := s.totalCost + c
                  recentNodes := if 5 < rec0.length then rec0.drop 1 else rec0
                  current := nxt
                  mode := pe.2 }

/-- Lines 45-54: the state set up before the loop runs. -/
def initState (start : V) : AntState V :=
  { path := [start], visited := [start], totalCost := 0, recentNodes := [start],
    current := start,
    mode := { swp := 0, lastCount := 0, escapeMode := false, escapeSteps := 0 } }

/-- `Ant.find_path(start, end, max_steps)`. -/
def findPath (g : Graph V) (d : Distances V) (rand : ℕ → ℕ) (start e : V)
    (maxSteps : ℕ) : FPResult V :=
  findPathLoop g d rand e maxSteps 0 (initState start)

/-- `neighbors[next_node]`-style edge weight recomputed straight from the
graph, for stating the cost consistency property. -/
def edgeWeight (g : Graph V) (a b : V) : Option ℚ :=
  match alookup g a with
  | none => none
  | some nb => alookup nb b

/-- Independent recomputation of a path's cost from the graph: `some` of the
sum of the consecutive edge weights, `none` if some consecutive pair is not
an edge of the graph. -/
def pathCost (g : Graph V) : List V → Option ℚ
  | [] => some 0
  | [_] => some 0
  | a :: b :: t =>
    match edgeWeight g a b, pathCost g (b :: t) with
    | some w, some rest => some (w + rest)
    | _, _ => none

/-- The shared pheromone dict, keyed by directed edges. -/
abbrev Pheromones (V : Type) := List ((V × V) × ℚ)

/-- Pheromone read with a default of `0` (the `if edge not in ...: = 0`
initialisation of `_deposit_pheromones`). -/
def lookupPhD (ph : Pheromones V) (e : V × V) : ℚ :=
  ((alookup ph e).getD 0)

/-- Add `amt` to one edge's intensity (lines 286-289). -/
def phAdd (ph : Pheromones V) (e : V × V) (amt : ℚ) : Pheromones V :=
  aset ph e (lookupPhD ph e + amt)

/-- Lines 280-283: the per-edge deposit amount.  Division by a zero cost
raises `ZeroDivisionError` in Python, modelled as `none`; note that for
paths longer than 1000 nodes the divisor is `cost * 0.1`. -/
def depositAmount (depositC : ℚ) (pathLen : ℕ) (cost : ℚ) : Option ℚ :=
  if cost = 0 then none
  else if 1000 < pathLen then some (depositC / (cost * (1 / 10)))
  else some (depositC / cost)

/-- The consecutive edges `(path[i], path[i+1])` of a path. -/
def consecPairs : List V → List (V × V)
  | a :: b :: t => (a, b) :: consecPairs (b :: t)
  | _ => []

/-- `AntColonyOptimization._deposit_pheromones` (lines 272-289). -/
def depositPheromones (depositC : ℚ) (ph : Pheromones V) (path : List V)
    (cost : ℚ) : Option (Pheromones V) :=
  match depositAmount depositC path.length cost with
  | none => none
  | some amt => some ((consecPairs path).foldl (fun acc e => phAdd acc e amt) ph)

/-- `AntColonyOptimization._evaporate_pheromones` (lines 291-298): decay
every intensity by `(1 - rate)` and clamp values below `0.01` up to `0.01`. -/
def evaporatePheromones (rate : ℚ) (ph : Pheromones V) : Pheromones V :=
  ph.map (fun p =>
    let v := p.2 * (1 - rate)
    (p.1, if v < 1 / 100 then 1 / 100 else v))

/-- Colony state across iterations; `bestCost = none` is `float('inf')`. -/
structure ColonyState (V : Type) where
  pheromones : Pheromones V
  bestPath : Option (List V)
  bestCost : Option ℚ
deriving DecidableEq

/-- `cost < self.best_cost` against a possibly infinite best. -/
def ltBest (c : ℚ) (b : Option ℚ) : Bool :=
  match b with
  | none => true
  | some x => decide (c < x)

/-- Lines 250-263: run one ant and fold its result into the colony state;
`none` models an exception escaping `run` (a `KeyError` from `find_path` or
the `ZeroDivisionError` of a zero-cost deposit).  The dead local
`iteration_best_cost` of the source is not modelled. -/
def processAnt (g : Graph V) (d : Distances V) (start e : V) (depositC : ℚ)
    (rand : ℕ → ℕ) (st : ColonyState V) : Option (ColonyState V) :=
  match findPath g d rand start e 20000 with
  | FPResult.found p c =>
    if p ≠ [] ∧ p.length < 10000 then
      let st1 :=
        if ltBest c st.bestCost then
          { st with bestPath := some p, bestCost := some c }
        else st
      match depositPheromones depositC st1.pheromones p c with
      | none => none
      | some ph1 => some { st1 with pheromones := ph1 }
    else some st
  | FPResult.nopath => some st
  | FPResult.err => none

/-- Lines 246-263: the per-iteration loop over `num_ants` fresh ants. -/
def runIteration (g : Graph V) (d : Distances V) (start e : V) (depositC : ℚ)
    (randsA : ℕ → ℕ → ℕ) (numAnts : ℕ) (st : ColonyState V) :
    Option (ColonyState V) :=
  (List.range numAnts).foldl
    (fun acc a => acc.bind (processAnt g d start e depositC (randsA a))) (some st)

/-- `if self.best_path and len(self.best_path) < 200` (line 267). -/
def earlyExit (bp : Option (List V)) : Bool :=
  match bp with
  | some p => ¬ p.isEmpty ∧ p.length < 200
  | none => false

/-- Lines 242-270: the iteration loop of `run`, with remaining iteration
budget `k` and current iteration index `i`. -/
def runLoop (g : Graph V) (d : Distances V) (start e : V) (depositC evapRate : ℚ)
    (rands : ℕ → ℕ → ℕ → ℕ) (numAnts : ℕ) :
    ℕ → ℕ → ColonyState V → Option (Option (List V) × Option ℚ)
  | 0, _, st => some (st.bestPath, st.bestCost)
  | k + 1, i, st =>
    match runIteration g d start e depositC (rands i) numAnts st with
    | none => none
    | some st1 =>
      let st2 := { st1 with pheromones := evaporatePheromones evapRate st1.pheromones }
      if earlyExit st2.bestPath then some (st2.bestPath, st2.bestCost)
      else runLoop g d start e depositC evapRate rands numAnts k (i + 1) st2

/-- `AntColonyOptimization.run(start, end)` with the constructor defaults it
depends on: empty initial pheromones, `best_path = None`, `best_cost = inf`.
A result of `none` models an exception escaping `run`. -/
def runACO (g : Graph V) (d : Distances V) (numAnts numIter : ℕ)
    (evapRate depositC : ℚ) (rands : ℕ → ℕ → ℕ → ℕ) (start e : V) :
    Option (Option (List V) × Option ℚ) :=
  runLoop g d start e depositC evapRate rands numAnts numIter 0
    { pheromones := [], bestPath := none, bestCost := none }

/-- The parsed graph shape consumed by `get_distance_dict`: per node, a
neighbour list whose weights may still be the unfilled `None`.  (Coordinates
are not read by `get_distance_dict` and are omitted.) -/
abbrev PGraph (V : Type) := List (V × List (V × Option ℚ))

/-- `graph_parser.get_distance_dict` (lines 83-98): flat dict keyed by
`(from_node, to_node)` tuples, keeping only filled distances. -/
def getDistanceDict (pg : PGraph V) : Distances V :=
  pg.foldl
    (fun acc node =>
      node.2.foldl
        (fun acc2 nb =>
          match nb.2 with
          | some dist => acc2 ++ [(PKey.pair node.1 nb.1, PVal.num dist)]
          | none => acc2)
        acc)
    []

/-- Whether an ant run with randomness stream `rnd` is counted successful
by `run` (line 252: a non-empty path shorter than 10000 nodes). -/
def antOk (g : Graph V) (d : Distances V) (rnd : ℕ → ℕ) (start e : V) : Prop :=
  match findPath g d rnd start e 20000 with
  | FPResult.found p _ => p ≠ [] ∧ p.length < 10000
  | _ => False

/-- Whether ant `a` of iteration `i` is counted successful by `run`. -/
def antSucceeds (g : Graph V) (d : Distances V) (rands : ℕ → ℕ → ℕ → ℕ)
    (start e : V) (i a : ℕ) : Prop :=
  antOk g d (rands i a) start e

/-! ## Spec-side definitions for the NORMAL selection refinement -/

/-- Modelled from the spec (§4.2 step 4): the NORMAL-mode score
`score(n) = pheromone(c,n)^alpha * (1 / (goalDistance(n) + edgeCost(c,n) + ε))^beta`,
with an unknown goal distance treated as infinite (score `0`).  The
exponents are taken as naturals so the score stays rational. -/
def specScore (ph : Pheromones V) (alpha beta : ℕ) (cur n : V)
    (gd : Option ℚ) (ec eps : ℚ) : ℚ :=
  match gd with
  | none => 0
  | some q => (lookupPhD ph (cur, n)) ^ alpha * (1 / (q + ec + eps)) ^ beta

/-- Modelled from the spec (§4.2 step 4): the deterministic-friendly tie
set — the candidates whose score lies within `tieEps` of the maximum score
over the tier. -/
def specTieSet (ph : Pheromones V) (alpha beta : ℕ) (cur : V)
    (gd : V → Option ℚ) (eps tieEps : ℚ) (cands : List (V × ℚ)) : List V :=
  let scores := cands.map (fun p => (p.1, specScore ph alpha beta cur p.1 (gd p.1) p.2 eps))
  let m := (scores.map Prod.snd).foldl max 0
  (scores.filter (fun p => decide (|p.2 - m| < tieEps))).map Prod.fst

/-! ## Concrete fixtures used by witnesses and counterexamples -/

def rand0 : ℕ → ℕ := fun _ => 0

def rands0 : ℕ → ℕ → ℕ → ℕ := fun _ _ _ => 0

/-- Two mutually linked nodes. -/
def exGraphAB : Graph String := [("A", [("B", 1)]), ("B", [("A", 1)])]

/-- A graph containing only the target, so that a foreign start node makes
`self.graph[current]` raise `KeyError`. -/
def exGraphOnlyB : Graph String := [("B", [])]

/-- A start node with no neighbours: every ant fails with `None`. -/
def exGraphIsolatedA : Graph String := [("A", [])]

/-- Heuristic data for the C1 counterexample: the code-side `distances`
dict with a table under the bare key `"E"`. -/
def c1dist : Distances String := [(PKey.str "E", PVal.table [("B", 10), ("C", 1)])]

/-- The same heuristic information as a spec-side table keyed by pairs. -/
def c1ht : List ((String × String) × ℚ) := [(("E", "B"), 10), (("E", "C"), 1)]

/-- Pheromones strongly favouring the edge to `"B"`. -/
def c1ph : Pheromones String := [(("A", "B"), 100), (("A", "C"), 1)]

/-! ## Theorems -/

/-- C1 (counterexample): with candidates `B` and `C` at edge cost 1, goal
distances 10 and 1, and a pheromone field strongly favouring `B`, the code's
`_greedy_selection` deterministically picks `C` (its heuristic ignores
pheromones, alpha and beta), while the spec's score
`pheromone^alpha * (1/(goalDistance+edgeCost+ε))^beta` (here with alpha =
beta = 1, ε = 1) has its maximum — and hence its entire tie set, and
positive roulette weight mass — at `B`.  The code's selection is therefore
not the claimed weighted sampling over the claimed scores. -/
theorem c1_counterexample :
    greedySelection c1dist 0 "E" (initState "A") [("B", 1), ("C", 1)] = some "C"
    ∧ specTieSet c1ph 1 1 "A" (fun n => alookup c1ht ("E", n)) 1 (1 / 1000000)
        [("B", 1), ("C", 1)] = ["B"]
    ∧ ("C" : String) ∉ (["B"] : List String) := by
  refine ⟨?_, ?_, by decide⟩
  · norm_num +decide [greedySelection, activeTier, tierUnvisited, tierVisitedNonRecent,
      tierVisitedRecent, bestLoop, heurVal, goalDistance, alookup, choice, initState,
      c1dist, abs_sub_lt_iff, List.filter, List.foldl]
  · norm_num +decide [specTieSet, specScore, lookupPhD, alookup, c1ph, c1ht,
      abs_sub_lt_iff, max_def, List.filter, List.foldl, List.map]

/-- C2: evaluating the code at `start = end = "A"`.  `find_path` returns the
single-node path `["A"]` with `total_cost` 0; the ant is counted successful
(non-empty path of length 1 < 10000); `_deposit_pheromones` then divides the
deposit constant by the zero cost, so `run` dies with `ZeroDivisionError`
(modelled as `none`) instead of returning — the cost passed to the deposit
is not strictly positive and the error is unhandled. -/
theorem c2_zero_cost_crash :
    findPath exGraphAB [] rand0 "A" "A" 20000 = FPResult.found ["A"] 0
    ∧ ((["A"] : List String) ≠ [] ∧ (1 : ℕ) < 10000)
    ∧ depositAmount 50 1 0 = none
    ∧ runACO exGraphAB [] 1 1 (1 / 10) 50 rands0 "A" "A" = none := by
  decide

/-- C3 (counterexample): for equal cost 1 and deposit constant 50, a path
over the length ceiling (1001 nodes) gets per-edge deposit `50/(1*0.1) =
500`, ten times the `50` of a short path — strictly greater, not strictly
less as claimed. -/
theorem c3_counterexample :
    depositAmount 50 1001 1 = some 500
    ∧ depositAmount 50 2 1 = some 50
    ∧ ¬ ((500 : ℚ) < 50)
    ∧ (50 : ℚ) < 500 := by
  refine ⟨?_, ?_, by norm_num, by norm_num⟩ <;> · norm_num [depositAmount]

/-- C4 (counterexample): starting from the initial empty pheromone dict, a
single deposit on path `A → B` with cost 10000 and deposit constant 50
stores intensity `1/200 = 0.005` on the edge, strictly below the floor
`0.01` — the floor invariant does not hold after deposits, only evaporation
clamps. -/
theorem c4_counterexample :
    depositPheromones 50 ([] : Pheromones String) ["A", "B"] 10000
      = some [(("A", "B"), 1 / 200)]
    ∧ (1 / 200 : ℚ) < 1 / 100 := by
  refine ⟨?_, by norm_num⟩
  norm_num [depositPheromones, depositAmount, consecPairs, phAdd, lookupPhD, aset, alookup,
    List.foldl]

/-- C9 (counterexample): with a start node absent from the graph (hence the
target unreachable from it) and no ant ever succeeding, `run` does not
return `(None, inf)`: the first ant's adjacency lookup raises `KeyError`
(modelled as `err`/`none`) and the exception escapes `run`. -/
theorem c9_counterexample :
    runACO exGraphOnlyB [] 1 1 (1 / 10) 50 rands0 "A" "B" = none
    ∧ findPath exGraphOnlyB [] (rands0 0 0) "A" "B" 20000 = FPResult.err := by
  decide

/-! ## A deterministic chain walk, for exercising the step ceiling -/

theorem alookup_append (l₁ l₂ : List (V × β)) (a : V) :
    alookup (l₁ ++ l₂) a =
      match alookup l₁ a with
      | some v => some v
      | none => alookup l₂ a := by
  induction l₁ with
  | nil => simp [alookup]
  | cons p t ih =>
    obtain ⟨k, v⟩ := p
    by_cases h : k = a <;> simp [alookup, h, ih]

theorem alookup_range_map (f : ℕ → β) (m i : ℕ) :
    alookup ((List.range m).map (fun j => (j, f j))) i =
      if i < m then some (f i) else none := by
  induction m with
  | zero => simp [alookup]
  | succ m ih =>
    rw [List.range_succ, List.map_append, alookup_append, ih]
    by_cases h : i < m
    · simp [h, Nat.lt_succ_of_lt h]
    · by_cases h2 : i = m
      · subst h2
        simp [alookup, Nat.lt_succ_self, h]
      · have h3 : ¬ i < m + 1 := by omega
        have h4 : ¬ m = i := fun he => h2 he.symm
        simp [alookup, h, h3, h4, List.map]

/-- A directed chain `0 → 1 → ⋯ → n` with unit edge weights, as a graph. -/
def chainGraph (n : ℕ) : Graph ℕ :=
  (List.range (n + 1)).map (fun i => (i, if i < n then [(i + 1, (1 : ℚ))] else []))

theorem alookup_chainGraph (n i : ℕ) :
    alookup (chainGraph n) i =
      if i < n + 1 then some (if i < n then [(i + 1, (1 : ℚ))] else []) else none :=
  alookup_range_map _ _ _

/-- The ant's state after `k` deterministic moves along the chain. -/
def chainSt (k : ℕ) : AntState ℕ :=
  { path := List.range (k + 1)
    visited := List.range (k + 1)
    totalCost := (k : ℚ)
    recentNodes := (List.range (k + 1)).drop (k + 1 - 5)
    current := k
    mode := { swp := 0, lastCount := if k = 0 then 0 else k,
              escapeMode := false, escapeSteps := 0 } }

theorem chainSt_zero : chainSt 0 = initState 0 := by
  simp [chainSt, initState, List.range_succ]

/-- The recency window of the chain walk stays the length-5 suffix. -/
theorem chain_recent (k : ℕ) :
    (if 5 < ((List.range (k + 1)).drop (k + 1 - 5) ++ [k + 1]).length
     then ((List.range (k + 1)).drop (k + 1 - 5) ++ [k + 1]).drop 1
     else (List.range (k + 1)).drop (k + 1 - 5) ++ [k + 1])
    = (List.range (k + 2)).drop (k + 2 - 5) := by
  have hlen : ((List.range (k + 1)).drop (k + 1 - 5)).length = (k + 1) - (k + 1 - 5) := by
    simp [List.length_drop]
  by_cases hk : 4 ≤ k
  · have h6 : 5 < ((List.range (k + 1)).drop (k + 1 - 5) ++ [k + 1]).length := by
      simp [hlen]; omega
    rw [if_pos h6,
      List.drop_append_of_le_length (by rw [hlen]; omega),
      List.drop_drop, show List.range (k + 2) = List.range (k + 1) ++ [k + 1] from
        List.range_succ (k + 1),
      List.drop_append_of_le_length (by simp; omega),
      show k + 1 - 5 + 1 = k + 2 - 5 by omega]
  · have h6 : ¬ 5 < ((List.range (k + 1)).drop (k + 1 - 5) ++ [k + 1]).length := by
      simp [hlen]; omega
    rw [if_neg h6, show k + 1 - 5 = 0 by omega, show k + 2 - 5 = 0 by omega]
    simp [List.range_succ (k + 1)]

/-- One deterministic step of the walk along the chain. -/
theorem chain_step (n k : ℕ) (hk : k < n) (r : ℕ → ℕ) (fuel step : ℕ) :
    findPathLoop (chainGraph n) [] r n (fuel + 1) step (chainSt k) =
      findPathLoop (chainGraph n) [] r n fuel (step + 1) (chainSt (k + 1)) := by
  have hg : alookup (chainGraph n) k = some [(k + 1, (1 : ℚ))] := by
    rw [alookup_chainGraph, if_pos (by omega), if_pos hk]
  have hg2 : (alookup (chainGraph n) (k + 1)).isSome = true := by
    rw [alookup_chainGraph, if_pos (by omega)]
    rfl
  have hne : ¬ (k = n) := by omega
  have hmem : ¬ (k + 1 ∈ List.range (k + 1)) := by simp
  have hcount : ¬ (k + 1 = if k = 0 then 0 else k) := by
    by_cases h0 : k = 0 <;> simp [h0]
  have hfil : ([(k + 1, (1 : ℚ))].filter
      (fun p => (alookup (chainGraph n) p.1).isSome)) = [(k + 1, (1 : ℚ))] := by
    simp [List.filter, hg2]
  have hmode1 : progressTrack
      { swp := 0, lastCount := if k = 0 then 0 else k,
        escapeMode := false, escapeSteps := 0 } (k + 1)
      = { swp := 0, lastCount := k + 1, escapeMode := false, escapeSteps := 0 } := by
    simp [progressTrack, hcount]
  have hmode2 : stagnationTrigger
      { swp := 0, lastCount := k + 1, escapeMode := false, escapeSteps := 0 }
      = { swp := 0, lastCount := k + 1, escapeMode := false, escapeSteps := 0 } := by
    simp [stagnationTrigger]
  have hmode3 : policyAndExit
      { swp := 0, lastCount := k + 1, escapeMode := false, escapeSteps := 0 }
      = (false, { swp := 0, lastCount := k + 1, escapeMode := false,
                  escapeSteps := 0 }) := by
    simp [policyAndExit]
  have htier : activeTier (chainSt k) [(k + 1, (1 : ℚ))] = [(k + 1, (1 : ℚ))] := by
    simp [activeTier, tierUnvisited, chainSt, List.filter, hmem]
  have hgreedy : greedySelection ([] : Distances ℕ) (r step) n (chainSt k)
      [(k + 1, (1 : ℚ))] = some (k + 1) := by
    rw [greedySelection, htier]
    rw [show bestLoop ([] : Distances ℕ) n [(k + 1, (1 : ℚ))] [] (-1)
        = ([k + 1], 0) by
      simp only [bestLoop, goalDistance, alookup, heurVal]
      rw [if_pos (by norm_num : (-1 : ℚ) < 0)]]
    simp [choice, Nat.mod_one]
  simp only [chainSt] at hgreedy
  rw [findPathLoop]
  simp only [chainSt, hne, ite_false, hg, List.length_range, hfil,
    List.isEmpty_cons, Bool.false_eq_true, hmode1, hmode2, hmode3,
    if_false, hgreedy, alookup, eq_self_iff_true, if_true]
  have hpath : List.range (k + 1) ++ [k + 1] = List.range (k + 2) :=
    (List.range_succ (k + 1)).symm
  have hcost : (k : ℚ) + 1 = ((k + 1 : ℕ) : ℚ) := by push_cast; ring
  have hvis : addVisited (List.range (k + 1)) (k + 1) = List.range (k + 2) := by
    rw [addVisited, if_neg hmem, hpath]
  congr 1
  simp only [hpath, hcost, hvis, chain_recent, Nat.succ_ne_zero, ite_false]

/-- The chain walk run with fuel `fuel` from `k` moves in: it succeeds
exactly when strictly more than `n - k` loop iterations remain (the target
is only detected by the check at the top of a later iteration). -/
theorem chain_loop (n : ℕ) : ∀ (fuel k step : ℕ) (r : ℕ → ℕ), k ≤ n →
    findPathLoop (chainGraph n) [] r n fuel step (chainSt k) =
      if n - k < fuel then FPResult.found (List.range (n + 1)) (n : ℚ)
      else FPResult.nopath := by
  intro fuel
  induction fuel with
  | zero =>
    intro k step r _
    rw [if_neg (by omega)]
    rfl
  | succ fuel ih =>
    intro k step r hk
    by_cases hkn : k = n
    · subst hkn
      rw [findPathLoop, if_pos (show (chainSt k).current = k from rfl),
        if_pos (by omega)]
      rfl
    · have hlt : k < n := by omega
      rw [chain_step n k hlt r fuel step, ih (k + 1) (step + 1) r (by omega)]
      by_cases hf : n - k < fuel + 1
      · rw [if_pos (by omega), if_pos hf]
      · rw [if_neg (by omega), if_neg hf]

/-- C6 (counterexample): on the chain `0 → 1 → ⋯ → 20000` the ant, started
at `0` with target `20000`, steps onto the target with its 20000th move —
within the fixed step ceiling of 20000 — and yet `find_path` returns `None`,
because the `current == end` check only runs at the top of each of the
20000 loop iterations.  With one extra allowed iteration the very same walk
returns the successful path. -/
theorem c6_counterexample :
    findPath (chainGraph 20000) [] rand0 0 20000 20000 = FPResult.nopath
    ∧ findPath (chainGraph 20000) [] rand0 0 20000 20001
        = FPResult.found (List.range 20001) 20000 := by
  constructor
  · rw [findPath, ← chainSt_zero, chain_loop 20000 20000 0 0 rand0 (by omega)]
    norm_num
  · rw [findPath, ← chainSt_zero, chain_loop 20000 20001 0 0 rand0 (by omega)]
    norm_num

/-- C6 (amended): `find_path` checks `current == end` only at the top of
each of its `max_steps` loop iterations.  Whenever the current node equals
the target and at least one iteration of budget remains, the loop returns
the accumulated path (never `None`); with the budget spent it returns
`None` unconditionally — so an ant first stepping onto the target exactly
on its final allowed move gets `None`, and a success requires reaching the
target within at most `max_steps - 1` moves. -/
theorem c6_amended (g : Graph V) (d : Distances V) (rand : ℕ → ℕ) (e : V)
    (fuel step : ℕ) (s : AntState V) :
    (0 < fuel → s.current = e →
      findPathLoop g d rand e fuel step s = FPResult.found s.path s.totalCost)
    ∧ findPathLoop g d rand e 0 step s = FPResult.nopath := by
  constructor
  · intro hf hc
    cases fuel with
    | zero => omega
    | succ fuel => rw [findPathLoop, if_pos hc]
  · rfl

theorem c6_amended_witness :
    (0 : ℕ) < 1
    ∧ findPathLoop exGraphAB [] rand0 "A" 1 0 (initState "A")
        = FPResult.found ["A"] 0 :=
  ⟨by decide,
    (c6_amended exGraphAB [] rand0 "A" 1 0 (initState "A")).1 (by decide) rfl⟩

/-- C7: the mode logic executed by each `find_path` iteration (progress
tracking, stagnation trigger, policy selection and escape-budget exit) is
the claimed two-state machine: (1) the escape policy is used exactly when,
after this step's bookkeeping, the ant is in escape mode with fewer than
200 escape steps; (2) from NORMAL mode the ant enters ESCAPE exactly when
the visited count did not grow and the consecutive-no-progress counter
(after its increment) exceeds 100; (3) from an (reachable) ESCAPE state —
one whose stagnation counter exceeds 100 — the ant returns to NORMAL
exactly when the visited count grows or the ticked escape-step counter
reaches the budget of 200. -/
theorem c7_mode_machine (m : ModeSt) (vc : ℕ) :
    ((policyAndExit (stagnationTrigger (progressTrack m vc))).1 = true
      ↔ ((stagnationTrigger (progressTrack m vc)).escapeMode = true
          ∧ (stagnationTrigger (progressTrack m vc)).escapeSteps < 200))
    ∧ (m.escapeMode = false →
        ((policyAndExit (stagnationTrigger (progressTrack m vc))).2.escapeMode = true
          ↔ (vc = m.lastCount ∧ 100 < m.swp + 1)))
    ∧ (m.escapeMode = true → 100 < m.swp →
        ((policyAndExit (stagnationTrigger (progressTrack m vc))).2.escapeMode = false
          ↔ (vc ≠ m.lastCount
              ∨ 200 ≤ (stagnationTrigger (progressTrack m vc)).escapeSteps))) := by
  obtain ⟨swp, lc, em, es⟩ := m
  cases em <;>
    · simp only [progressTrack, stagnationTrigger, policyAndExit]
      split_ifs <;> simp_all <;> omega

/-! ## Selection results are members of the available list -/

theorem choice_mem {l : List α} {r : ℕ} {x : α} (h : choice r l = some x) :
    x ∈ l :=
  List.get?_mem h

theorem alookup_isSome_of_mem {l : List (V × β)} {a : V} {b : β}
    (h : (a, b) ∈ l) : (alookup l a).isSome = true := by
  induction l with
  | nil => cases h
  | cons p t ih =>
    obtain ⟨k, v⟩ := p
    by_cases hk : k = a
    · simp [alookup, hk]
    · rcases List.mem_cons.1 h with he | ht
      · cases he; simp at hk
      · simp [alookup, hk, ih ht]

theorem mem_fst_exists {l : List (V × β)} {a : V}
    (h : a ∈ l.map Prod.fst) : ∃ b, (a, b) ∈ l := by
  rcases List.mem_map.1 h with ⟨p, hp, hfst⟩
  exact ⟨p.2, by rw [← hfst]; exact hp⟩

theorem bestLoop_mem (d : Distances V) (e : V) :
    ∀ (cands : List (V × ℚ)) (best : List V) (bh : ℚ) {x : V},
      x ∈ (bestLoop d e cands best bh).1 → x ∈ best ∨ x ∈ cands.map Prod.fst := by
  intro cands
  induction cands with
  | nil => intro best bh x hx; exact Or.inl hx
  | cons p rest ih =>
    obtain ⟨n, c⟩ := p
    intro best bh x hx
    rw [bestLoop] at hx
    by_cases h1 : bh < heurVal (goalDistance d e n) c
    · rw [if_pos h1] at hx
      rcases ih _ _ hx with h | h
      · rcases List.mem_singleton.1 h with rfl
        exact Or.inr (by simp)
      · exact Or.inr (by simp [h])
    · rw [if_neg h1] at hx
      by_cases h2 : |heurVal (goalDistance d e n) c - bh| < 1 / 1000000
      · rw [if_pos h2] at hx
        rcases ih _ _ hx with h | h
        · rcases List.mem_append.1 h with h | h
          · exact Or.inl h
          · rcases List.mem_singleton.1 h with rfl
            exact Or.inr (by simp)
        · exact Or.inr (by simp [h])
      · rw [if_neg h2] at hx
        rcases ih _ _ hx with h | h
        · exact Or.inl h
        · exact Or.inr (by simp [h])

theorem activeTier_subset {s : AntState V} {avail : List (V × ℚ)} {p : V × ℚ}
    (h : p ∈ activeTier s avail) : p ∈ avail := by
  simp only [activeTier, tierUnvisited, tierVisitedNonRecent,
    tierVisitedRecent] at h
  split_ifs at h <;> exact (List.mem_filter.1 h).1

theorem greedy_mem {d : Distances V} {r : ℕ} {e : V} {s : AntState V}
    {avail : List (V × ℚ)} {n : V}
    (h : greedySelection d r e s avail = some n) : n ∈ avail.map Prod.fst := by
  rcases bestLoop_mem d e _ _ _ (choice_mem h) with h | h
  · cases h
  · rcases mem_fst_exists h with ⟨c, hc⟩
    rcases mem_fst_exists ((List.mem_map).2 ⟨(n, c), hc, rfl⟩) with ⟨c', hc'⟩
    exact List.mem_map.2 ⟨(n, c'), activeTier_subset hc', rfl⟩

theorem mem_insKey {k : V → Option ℚ} {x a : V} :
    ∀ {l : List V}, a ∈ insKey k x l ↔ a = x ∨ a ∈ l := by
  intro l
  induction l with
  | nil => simp [insKey]
  | cons y ys ih =>
    rw [insKey]
    by_cases h : leKey (k x) (k y) = true
    · rw [if_pos h]
      simp only [List.mem_cons]
    · rw [if_neg h]
      simp only [List.mem_cons, ih]
      tauto

theorem mem_sortByKey {k : V → Option ℚ} {l : List V} {a : V} :
    a ∈ sortByKey k l ↔ a ∈ l := by
  induction l with
  | nil => simp [sortByKey]
  | cons y ys ih =>
    rw [sortByKey, List.foldr_cons]
    rw [show ys.foldr (insKey k) [] = sortByKey k ys from rfl] at *
    rw [mem_insKey, ih, List.mem_cons]

theorem foldl_max2_mem (x : V × ℕ) (xs : List (V × ℕ)) :
    xs.foldl (fun b y => if b.2 < y.2 then y else b) x ∈ x :: xs := by
  induction xs generalizing x with
  | nil => simp
  | cons y ys ih =>
    rw [List.foldl_cons]
    rcases List.mem_cons.1 (ih (if x.2 < y.2 then y else x)) with h | h
    · rw [h]
      by_cases hlt : x.2 < y.2 <;> simp [hlt]
    · simp [h]

theorem maxBySnd_mem {l : List (V × ℕ)} {x : V × ℕ}
    (h : maxBySnd l = some x) : x ∈ l := by
  cases l with
  | nil => cases h
  | cons y ys =>
    rw [maxBySnd] at h
    injection h with h
    rw [← h]
    exact foldl_max2_mem y ys

theorem tierUnvisited_map_subset {s : AntState V} {avail : List (V × ℚ)} {a : V}
    (h : a ∈ (tierUnvisited s avail).map Prod.fst) : a ∈ avail.map Prod.fst := by
  rcases mem_fst_exists h with ⟨c, hc⟩
  exact List.mem_map.2 ⟨(a, c), (List.mem_filter.1 hc).1, rfl⟩

theorem escape_mem {d : Distances V} {r : ℕ} {e : V} {s : AntState V}
    {avail : List (V × ℚ)} {n : V}
    (h : aggressiveEscape d r e s avail = some n) : n ∈ avail.map Prod.fst := by
  rw [aggressiveEscape] at h
  by_cases hu : ¬ ((tierUnvisited s avail).map Prod.fst).isEmpty = true
  · rw [if_pos hu] at h
    by_cases hm : memDist d (PKey.str e) = true
    · rw [if_pos hm] at h
      exact tierUnvisited_map_subset
        (mem_sortByKey.1 (List.mem_of_mem_take (choice_mem h)))
    · rw [if_neg hm] at h
      exact tierUnvisited_map_subset (choice_mem h)
  · rw [if_neg hu] at h
    dsimp only at h
    rcases hmx : maxBySnd (avail.filterMap
        (fun p => if p.1 ∈ s.path then some (p.1, distFromLastVisit s.path p.1)
                  else none)) with _ | x
    · rw [hmx] at h
      exact choice_mem h
    · rw [hmx] at h
      injection h with h
      rcases List.mem_filterMap.1 (maxBySnd_mem hmx) with ⟨p, hp, hpx⟩
      by_cases hin : p.1 ∈ s.path
      · rw [if_pos hin] at hpx
        injection hpx with hpx
        rw [← h, ← hpx]
        exact List.mem_map.2 ⟨p, hp, rfl⟩
      · rw [if_neg hin] at hpx
        cases hpx

/-! ## C5: success results are valid start-to-end paths with consistent cost -/

theorem pathCost_concat (g : Graph V) :
    ∀ (l : List V) (a b : V) (w q : ℚ),
      l.getLast? = some a → edgeWeight g a b = some w →
      pathCost g l = some q → pathCost g (l ++ [b]) = some (q + w) := by
  intro l
  induction l with
  | nil => intro a b w q hl; cases hl
  | cons x t ih =>
    intro a b w q hl hw hq
    cases t with
    | nil =>
      have hx : x = a := by
        have h2 : some x = some a := by rw [← hl]; rfl
        injection h2
      subst hx
      rw [pathCost] at hq
      injection hq with hq
      subst hq
      show pathCost g (x :: b :: []) = some (0 + w)
      rw [pathCost, hw, pathCost]
      exact congrArg some (by ring)
    | cons y t' =>
      rw [List.getLast?_cons_cons] at hl
      rw [pathCost] at hq
      rcases hew : edgeWeight g x y with _ | wxy
      · rw [hew] at hq; cases hq
      rcases hpc : pathCost g (y :: t') with _ | q'
      · rw [hew, hpc] at hq; cases hq
      rw [hew, hpc] at hq
      injection hq with hq
      have hstep := ih a b w q' hl hw hpc
      show pathCost g (x :: (y :: (t' ++ [b]))) = some (q + w)
      rw [pathCost, hew,
        show pathCost g (y :: (t' ++ [b])) = some (q' + w) from hstep]
      exact congrArg some (by rw [← hq]; ring)

theorem findPathLoop_found (g : Graph V) (d : Distances V) (rand : ℕ → ℕ) (e : V) :
    ∀ (fuel step : ℕ) (s : AntState V) (p : List V) (c : ℚ),
      findPathLoop g d rand e fuel step s = FPResult.found p c →
      s.path ≠ [] → s.path.getLast? = some s.current →
      pathCost g s.path = some s.totalCost →
      p.head? = s.path.head? ∧ p.getLast? = some e ∧ pathCost g p = some c := by
  intro fuel
  induction fuel with
  | zero => intro step s p c h; cases h
  | succ fuel ih =>
    intro step s p c h hne hlast hcost
    rw [findPathLoop] at h
    by_cases hcur : s.current = e
    · rw [if_pos hcur] at h
      injection h with h1 h2
      subst h1; subst h2
      exact ⟨rfl, hcur ▸ hlast, hcost⟩
    · rw [if_neg hcur] at h
      rcases hga : alookup g s.current with _ | nbrs
      · rw [hga] at h; cases h
      · rw [hga] at h
        simp only at h
        by_cases hav : ((nbrs.filter (fun p => (alookup g p.1).isSome)).isEmpty) = true
        · rw [if_pos hav] at h; cases h
        · rw [if_neg hav] at h
          rcases hsel : (if (policyAndExit (stagnationTrigger
                (progressTrack s.mode s.visited.length))).1 = true
              then aggressiveEscape d (rand step) e s
                (nbrs.filter (fun p => (alookup g p.1).isSome))
              else greedySelection d (rand step) e s
                (nbrs.filter (fun p => (alookup g p.1).isSome))) with _ | nxt
          · rw [hsel] at h; cases h
          · rw [hsel] at h
            have hmemf : nxt ∈ (nbrs.filter
                (fun p => (alookup g p.1).isSome)).map Prod.fst := by
              by_cases hpe : (policyAndExit (stagnationTrigger
                  (progressTrack s.mode s.visited.length))).1 = true
              · rw [if_pos hpe] at hsel; exact escape_mem hsel
              · rw [if_neg hpe] at hsel; exact greedy_mem hsel
            rcases mem_fst_exists hmemf with ⟨cc, hcc⟩
            have hnb : (nxt, cc) ∈ nbrs := (List.mem_filter.1 hcc).1
            dsimp only at h
            rcases hlk : alookup nbrs nxt with _ | w
            · have := alookup_isSome_of_mem hnb
              rw [hlk] at this; cases this
            · rw [hlk] at h
              dsimp only at h
              have hrec := ih (step + 1) _ p c h (by simp)
                (by simpa using List.getLast?_concat (a := nxt) s.path)
                (by
                  show pathCost g (s.path ++ [nxt]) = some (s.totalCost + w)
                  exact pathCost_concat g s.path s.current nxt w s.totalCost
                    hlast (by rw [edgeWeight, hga]; exact hlk) hcost)
              refine ⟨?_, hrec.2.1, hrec.2.2⟩
              rw [hrec.1]
              show (s.path ++ [nxt]).head? = s.path.head?
              cases hp : s.path with
              | nil => exact absurd hp hne
              | cons a t => rfl

/-- C5: for every successful `find_path` result `(path, cost)`, the path
starts at `start`, ends at the target, and its cost equals the sum of the
consecutive edge weights recomputed independently from the graph (which in
particular requires every consecutive pair to be an edge of the graph). -/
theorem c5_path_valid (g : Graph V) (d : Distances V) (rand : ℕ → ℕ)
    (start e : V) (maxSteps : ℕ) (p : List V) (c : ℚ)
    (h : findPath g d rand start e maxSteps = FPResult.found p c) :
    p.head? = some start ∧ p.getLast? = some e ∧ pathCost g p = some c := by
  have := findPathLoop_found g d rand e maxSteps 0 (initState start) p c h
    (by simp [initState]) (by simp [initState]) (by simp [initState, pathCost])
  exact ⟨by rw [this.1]; rfl, this.2.1, this.2.2⟩

theorem c5_path_valid_witness :
    findPath exGraphAB [] rand0 "A" "B" 5 = FPResult.found ["A", "B"] 1
    ∧ ((["A", "B"] : List String).head? = some "A"
        ∧ (["A", "B"] : List String).getLast? = some "B"
        ∧ pathCost exGraphAB ["A", "B"] = some 1) := by
  have h : findPath exGraphAB [] rand0 "A" "B" 5 = FPResult.found ["A", "B"] 1 := by
    norm_num +decide [findPath, findPathLoop, initState, exGraphAB, alookup,
      List.filter, progressTrack, stagnationTrigger, policyAndExit,
      greedySelection, activeTier, tierUnvisited, tierVisitedNonRecent,
      tierVisitedRecent, bestLoop, goalDistance, heurVal, choice, addVisited]
  exact ⟨h, c5_path_valid exGraphAB [] rand0 "A" "B" 5 ["A", "B"] 1 h⟩

/-! ## C1 (amended): the NORMAL selection really performed by the code -/

/-- Invariant of the `best_candidates` accumulation loop: every collected
candidate occurs in the tier with a heuristic within `1e-6` below the final
best value, the best value never decreases, and it dominates every
candidate's heuristic. -/
theorem bestLoop_spec (d : Distances V) (e : V) (tier : List (V × ℚ)) :
    ∀ (cands : List (V × ℚ)) (acc : List V) (bh : ℚ),
      (∀ x ∈ acc, ∃ cx, (x, cx) ∈ tier
        ∧ bh - 1 / 1000000 < heurVal (goalDistance d e x) cx
        ∧ heurVal (goalDistance d e x) cx ≤ bh) →
      (∀ p ∈ cands, p ∈ tier) →
      (∀ x ∈ (bestLoop d e cands acc bh).1, ∃ cx, (x, cx) ∈ tier
        ∧ (bestLoop d e cands acc bh).2 - 1 / 1000000
            < heurVal (goalDistance d e x) cx
        ∧ heurVal (goalDistance d e x) cx ≤ (bestLoop d e cands acc bh).2)
      ∧ bh ≤ (bestLoop d e cands acc bh).2
      ∧ ∀ p ∈ cands,
          heurVal (goalDistance d e p.1) p.2 ≤ (bestLoop d e cands acc bh).2 := by
  intro cands
  induction cands with
  | nil =>
    intro acc bh hacc _
    exact ⟨hacc, le_refl bh, by intro p hp; cases hp⟩
  | cons q rest ih =>
    obtain ⟨n, c⟩ := q
    intro acc bh hacc hcands
    rw [bestLoop]
    by_cases h1 : bh < heurVal (goalDistance d e n) c
    · rw [if_pos h1]
      have hrec := ih [n] (heurVal (goalDistance d e n) c)
        (by
          intro x hx
          rcases List.mem_singleton.1 hx with rfl
          exact ⟨c, hcands (x, c) (by simp), by norm_num, le_refl _⟩)
        (fun p hp => hcands p (by simp [hp]))
      refine ⟨hrec.1, le_trans (le_of_lt h1) hrec.2.1, ?_⟩
      intro p hp
      rcases List.mem_cons.1 hp with rfl | hp
      · exact hrec.2.1
      · exact hrec.2.2 p hp
    · rw [if_neg h1]
      by_cases h2 : |heurVal (goalDistance d e n) c - bh| < 1 / 1000000
      · rw [if_pos h2]
        have habs := abs_lt.1 h2
        have hrec := ih (acc ++ [n]) bh
          (by
            intro x hx
            rcases List.mem_append.1 hx with hx | hx
            · exact hacc x hx
            · rcases List.mem_singleton.1 hx with rfl
              exact ⟨c, hcands (x, c) (by simp), by linarith [habs.1],
                by linarith⟩)
          (fun p hp => hcands p (by simp [hp]))
        refine ⟨hrec.1, hrec.2.1, ?_⟩
        intro p hp
        rcases List.mem_cons.1 hp with rfl | hp
        · exact le_trans (by linarith) hrec.2.1
        · exact hrec.2.2 p hp
      · rw [if_neg h2]
        have hrec := ih acc bh hacc (fun p hp => hcands p (by simp [hp]))
        refine ⟨hrec.1, hrec.2.1, ?_⟩
        intro p hp
        rcases List.mem_cons.1 hp with rfl | hp
        · exact le_trans (by linarith) hrec.2.1
        · exact hrec.2.2 p hp

/-- C1 (amended): a node selected by `_greedy_selection` lies in the active
tier and its goal heuristic `1/(goalDistance + edgeCost + 1)` is within
`1e-6` of the heuristic of every other tier candidate — the selection is a
uniform draw from the near-argmax tie set of the pheromone-free heuristic,
not a roulette over pheromone-weighted scores. -/
theorem c1_amended (d : Distances V) (r : ℕ) (e : V) (s : AntState V)
    (avail : List (V × ℚ)) (n : V)
    (h : greedySelection d r e s avail = some n) :
    ∃ cn, (n, cn) ∈ activeTier s avail
      ∧ ∀ p ∈ activeTier s avail,
          heurVal (goalDistance d e p.1) p.2
            ≤ heurVal (goalDistance d e n) cn + 1 / 1000000 := by
  have hb := bestLoop_spec d e (activeTier s avail) (activeTier s avail) [] (-1)
    (by intro x hx; cases hx) (fun p hp => hp)
  rcases hb.1 n (choice_mem h) with ⟨cn, hcn, hlow, _⟩
  refine ⟨cn, hcn, ?_⟩
  intro p hp
  have := hb.2.2 p hp
  linarith

theorem c1_amended_witness :
    greedySelection ([] : Distances String) 0 "E" (initState "A")
        [("B", 1)] = some "B"
    ∧ ∃ cn, (("B" : String), cn) ∈ activeTier (initState "A") [("B", (1 : ℚ))]
        ∧ ∀ p ∈ activeTier (initState "A") [("B", (1 : ℚ))],
            heurVal (goalDistance ([] : Distances String) "E" p.1) p.2
              ≤ heurVal (goalDistance ([] : Distances String) "E" "B") cn
                + 1 / 1000000 := by
  have h : greedySelection ([] : Distances String) 0 "E" (initState "A")
      [("B", 1)] = some "B" := by
    norm_num +decide [greedySelection, activeTier, tierUnvisited,
      tierVisitedNonRecent, tierVisitedRecent, bestLoop, goalDistance, alookup,
      heurVal, choice, initState]
  exact ⟨h, c1_amended [] 0 "E" (initState "A") [("B", 1)] "B" h⟩

/-! ## C8: tier priority in both selection routines -/

theorem reverse_drop (l : List V) (k : ℕ) :
    (l.drop k).reverse = l.reverse.take (l.length - k) := by
  by_cases hk : k ≤ l.length
  · have h1 := List.reverse_take (l := l.reverse) (n := l.length - k)
    rw [List.reverse_reverse, List.length_reverse] at h1
    rw [show l.length - (l.length - k) = k by omega] at h1
    rw [← h1, List.reverse_reverse]
  · rw [show l.length - k = 0 by omega, List.take_zero,
      List.drop_eq_nil_of_le (by omega), List.reverse_nil]

theorem mem_take_iff_indexOf {a : V} :
    ∀ {l : List V}, a ∈ l → ∀ k, (a ∈ l.take k ↔ l.indexOf a < k) := by
  intro l
  induction l with
  | nil => intro h; cases h
  | cons b t ih =>
    intro h k
    by_cases hab : b = a
    · subst hab
      rw [List.indexOf_cons_self]
      cases k with
      | zero => simp
      | succ k => simp [List.take_succ_cons]
    · have hat : a ∈ t := by
        rcases List.mem_cons.1 h with rfl | h2
        · exact absurd rfl hab
        · exact h2
      rw [List.indexOf_cons_ne t hab]
      cases k with
      | zero => simp
      | succ k =>
        rw [List.take_succ_cons]
        simp only [List.mem_cons, Nat.succ_lt_succ_iff, ← ih hat k]
        constructor
        · rintro (rfl | h2)
          · exact absurd rfl hab
          · exact h2
        · intro h2
          exact Or.inr h2

theorem distFromLastVisit_eq {path : List V} {a : V} (h : a ∈ path) :
    distFromLastVisit path a = path.reverse.indexOf a + 1 := by
  have hridx : path.reverse.indexOf a < path.length := by
    rw [← List.length_reverse]
    exact List.indexOf_lt_length.2 (List.mem_reverse.2 h)
  rw [distFromLastVisit]
  omega

theorem mem_recent_iff {path : List V} {a : V} (h : a ∈ path) :
    a ∈ path.drop (path.length - 5)
      ↔ path.reverse.indexOf a < min 5 path.length := by
  have h1 : (a ∈ path.drop (path.length - 5))
      ↔ a ∈ (path.drop (path.length - 5)).reverse := List.mem_reverse.symm
  rw [h1, reverse_drop,
    show path.length - (path.length - 5) = min 5 path.length by omega]
  exact mem_take_iff_indexOf (List.mem_reverse.2 h) _

theorem foldl_max2_ge (x : V × ℕ) (xs : List (V × ℕ)) :
    ∀ z ∈ x :: xs, z.2 ≤ (xs.foldl (fun b y => if b.2 < y.2 then y else b) x).2 := by
  induction xs generalizing x with
  | nil =>
    intro z hz
    rcases List.mem_singleton.1 hz with rfl
    exact le_refl _
  | cons y ys ih =>
    intro z hz
    rw [List.foldl_cons]
    have hxy1 : x.2 ≤ (if x.2 < y.2 then y else x).2 := by
      split_ifs with hh
      · exact le_of_lt hh
      · exact le_refl _
    have hxy2 : y.2 ≤ (if x.2 < y.2 then y else x).2 := by
      split_ifs with hh
      · exact le_refl _
      · omega
    rcases List.mem_cons.1 hz with rfl | hz2
    · exact le_trans hxy1 (ih _ _ (by simp))
    rcases List.mem_cons.1 hz2 with rfl | hz3
    · exact le_trans hxy2 (ih _ _ (by simp))
    · exact ih _ z (by simp [hz3])

theorem maxBySnd_ge {l : List (V × ℕ)} {x : V × ℕ} (h : maxBySnd l = some x) :
    ∀ z ∈ l, z.2 ≤ x.2 := by
  cases l with
  | nil => intro z hz; cases hz
  | cons y ys =>
    rw [maxBySnd] at h
    injection h with h
    intro z hz
    rw [← h]
    exact foldl_max2_ge y ys z hz

theorem maxBySnd_eq_none {l : List (V × ℕ)} (h : maxBySnd l = none) : l = [] := by
  cases l with
  | nil => rfl
  | cons y ys => cases h

/-- C8: in both selection routines the chosen node always lies in the
highest non-empty priority tier (`activeTier`): unvisited first, then
visited-but-not-recent, then recent.  For `_greedy_selection` this holds
unconditionally; for `_aggressive_escape` it holds for every well-formed
ant state (the visited set is the set of path nodes, and the recency window
is the length-5 suffix of the path — both invariants of `find_path`). -/
theorem c8_tier_priority (d : Distances V) (r : ℕ) (e : V) (s : AntState V)
    (avail : List (V × ℚ)) (n : V) :
    (greedySelection d r e s avail = some n →
      n ∈ (activeTier s avail).map Prod.fst)
    ∧ ((∀ x, x ∈ s.visited ↔ x ∈ s.path) →
        s.recentNodes = s.path.drop (s.path.length - 5) →
        aggressiveEscape d r e s avail = some n →
        n ∈ (activeTier s avail).map Prod.fst) := by
  constructor
  · intro h
    rcases bestLoop_mem d e _ _ _ (choice_mem h) with h2 | h2
    · cases h2
    · exact h2
  · intro hvp hrec h
    rw [aggressiveEscape] at h
    by_cases hu : ¬ ((tierUnvisited s avail).map Prod.fst).isEmpty = true
    · rw [if_pos hu] at h
      have hactive : activeTier s avail = tierUnvisited s avail := by
        rw [activeTier, if_pos (by
          intro hh
          exact hu (by rw [List.isEmpty_iff.1 hh]; rfl))]
      rw [hactive]
      by_cases hm : memDist d (PKey.str e) = true
      · rw [if_pos hm] at h
        exact mem_sortByKey.1 (List.mem_of_mem_take (choice_mem h))
      · rw [if_neg hm] at h
        exact choice_mem h
    · rw [if_neg hu] at h
      dsimp only at h
      have htU : tierUnvisited s avail = [] :=
        List.map_eq_nil.1 (List.isEmpty_iff.1 (not_not.1 hu))
      have hallvis : ∀ p ∈ avail, p.1 ∈ s.visited := by
        intro p hp
        by_contra hnv
        have hmem : p ∈ tierUnvisited s avail :=
          List.mem_filter.2 ⟨hp, by simpa using hnv⟩
        rw [htU] at hmem
        cases hmem
      rcases hmx : maxBySnd (avail.filterMap
          (fun p => if p.1 ∈ s.path then some (p.1, distFromLastVisit s.path p.1)
                    else none)) with _ | x
      · rw [hmx] at h
        rcases mem_fst_exists (choice_mem h) with ⟨cn, hcn⟩
        have hpath : n ∈ s.path := (hvp n).1 (hallvis _ hcn)
        have hvwd : (n, distFromLastVisit s.path n) ∈ avail.filterMap
            (fun p => if p.1 ∈ s.path then some (p.1, distFromLastVisit s.path p.1)
                      else none) :=
          List.mem_filterMap.2 ⟨(n, cn), hcn, by rw [if_pos hpath]⟩
        rw [maxBySnd_eq_none hmx] at hvwd
        cases hvwd
      · rw [hmx] at h
        injection h with h
        rcases List.mem_filterMap.1 (maxBySnd_mem hmx) with ⟨p, hp, hpx⟩
        by_cases hppath : p.1 ∈ s.path
        swap
        · rw [if_neg hppath] at hpx; cases hpx
        rw [if_pos hppath] at hpx
        injection hpx with hpx
        have hx1 : x.1 = p.1 := by rw [← hpx]
        have hx2 : x.2 = distFromLastVisit s.path p.1 := by rw [← hpx]
        have hxavail : (x.1, p.2) ∈ avail := by rw [hx1]; exact hp
        have hxvis : x.1 ∈ s.visited := by rw [hx1]; exact hallvis _ hp
        have hxpath : x.1 ∈ s.path := (hvp _).1 hxvis
        subst h
        by_cases hvnr : tierVisitedNonRecent s avail = []
        · have hactive : activeTier s avail = tierVisitedRecent s avail := by
            rw [activeTier, if_neg (by rw [htU]; simp), if_neg (by rw [hvnr]; simp)]
          rw [hactive]
          have hxrec : x.1 ∈ s.recentNodes := by
            by_contra hnr
            have hmem : (x.1, p.2) ∈ tierVisitedNonRecent s avail :=
              List.mem_filter.2 ⟨hxavail, by simp [hxvis, hnr]⟩
            rw [hvnr] at hmem
            cases hmem
          exact List.mem_map.2 ⟨(x.1, p.2),
            List.mem_filter.2 ⟨hxavail, by simp [hxvis, hxrec]⟩, rfl⟩
        · have hactive : activeTier s avail = tierVisitedNonRecent s avail := by
            rw [activeTier, if_neg (by rw [htU]; simp),
              if_pos (by simpa [List.isEmpty_iff] using hvnr)]
          rcases List.exists_mem_of_ne_nil _ hvnr with ⟨pm, hpm⟩
          have hm_avail : pm ∈ avail := (List.mem_filter.1 hpm).1
          have hm_cond : pm.1 ∈ s.visited ∧ pm.1 ∉ s.recentNodes := by
            simpa using (List.mem_filter.1 hpm).2
          have hm_path : pm.1 ∈ s.path := (hvp _).1 hm_cond.1
          have hm_vwd : (pm.1, distFromLastVisit s.path pm.1) ∈ avail.filterMap
              (fun p => if p.1 ∈ s.path then some (p.1, distFromLastVisit s.path p.1)
                        else none) :=
            List.mem_filterMap.2 ⟨pm, hm_avail, by rw [if_pos hm_path]⟩
          have hge := maxBySnd_ge hmx _ hm_vwd
          have hd_m : 5 < distFromLastVisit s.path pm.1 := by
            rw [distFromLastVisit_eq hm_path]
            have hnlt : ¬ (s.path.reverse.indexOf pm.1 < min 5 s.path.length) := by
              intro hlt
              exact hm_cond.2 (hrec ▸ (mem_recent_iff hm_path).2 hlt)
            have hridx : s.path.reverse.indexOf pm.1 < s.path.length := by
              rw [← List.length_reverse]
              exact List.indexOf_lt_length.2 (List.mem_reverse.2 hm_path)
            omega
          have hd_x : 5 < distFromLastVisit s.path x.1 := by
            rw [hx1]
            rw [hx2] at hge
            omega
          have hx_nrec : x.1 ∉ s.recentNodes := by
            rw [hrec]
            intro hmem
            have hlt := (mem_recent_iff hxpath).1 hmem
            rw [distFromLastVisit_eq hxpath] at hd_x
            omega
          rw [hactive]
          exact List.mem_map.2 ⟨(x.1, p.2),
            List.mem_filter.2 ⟨hxavail, by simp [hxvis, hx_nrec]⟩, rfl⟩

theorem c8_tier_priority_witness :
    greedySelection ([] : Distances String) 0 "E" (initState "A")
        [("A", 1), ("B", 1)] = some "B"
    ∧ aggressiveEscape ([] : Distances String) 0 "E" (initState "A")
        [("A", 1), ("B", 1)] = some "B"
    ∧ ("B" : String) ∈ ((activeTier (initState "A")
        [("A", (1 : ℚ)), ("B", 1)]).map Prod.fst) := by
  have hg : greedySelection ([] : Distances String) 0 "E" (initState "A")
      [("A", 1), ("B", 1)] = some "B" := by
    norm_num +decide [greedySelection, activeTier, tierUnvisited,
      tierVisitedNonRecent, tierVisitedRecent, bestLoop, goalDistance, alookup,
      heurVal, choice, initState, List.filter]
  have he : aggressiveEscape ([] : Distances String) 0 "E" (initState "A")
      [("A", 1), ("B", 1)] = some "B" := by
    norm_num +decide [aggressiveEscape, tierUnvisited, memDist, alookup,
      choice, initState, List.filter]
  exact ⟨hg, he,
    (c8_tier_priority [] 0 "E" (initState "A") [("A", 1), ("B", 1)] "B").2
      (fun x => Iff.rfl) rfl he⟩

/-! ## C3/C4 (amended): deposit and evaporation arithmetic -/

theorem alookup_aset (l : List (V × β)) (a : V) (b : β) (x : V) :
    alookup (aset l a b) x = if a = x then some b else alookup l x := by
  induction l with
  | nil =>
    rw [aset]
    by_cases hx : a = x <;> simp [alookup, hx]
  | cons p t ih =>
    obtain ⟨k, v⟩ := p
    by_cases hk : k = a
    · subst hk
      rw [aset, if_pos rfl]
      by_cases hx : k = x <;> simp [alookup, hx]
    · rw [aset, if_neg hk]
      by_cases hx : k = x
      · subst hx
        rw [alookup, if_pos rfl, if_neg (fun h => hk h.symm), alookup,
          if_pos rfl]
      · rw [alookup, if_neg hx, ih, alookup, if_neg hx]

theorem lookupPhD_phAdd (ph : Pheromones V) (e x : V × V) (amt : ℚ) :
    lookupPhD (phAdd ph e amt) x
      = lookupPhD ph x + (if e = x then amt else 0) := by
  rw [phAdd, lookupPhD, alookup_aset]
  by_cases hx : e = x
  · subst hx
    rw [if_pos rfl, if_pos rfl]
    rfl
  · rw [if_neg hx, if_neg hx, lookupPhD, add_zero]

theorem deposit_fold (amt : ℚ) :
    ∀ (pairs : List (V × V)) (ph : Pheromones V) (x : V × V),
      lookupPhD (pairs.foldl (fun acc e => phAdd acc e amt) ph) x
        = lookupPhD ph x + amt * (pairs.count x) := by
  intro pairs
  induction pairs with
  | nil =>
    intro ph x
    rw [List.foldl_nil, List.count_nil]
    push_cast
    ring
  | cons p rest ih =>
    intro ph x
    rw [List.foldl_cons, ih, lookupPhD_phAdd, List.count_cons]
    by_cases hpx : p = x
    · subst hpx
      simp only [if_pos rfl, beq_self_eq_true, if_true]
      push_cast
      ring
    · have hb : ¬ ((p == x) = true) := by simpa using hpx
      rw [if_neg hpx, if_neg hb]
      push_cast
      ring

/-- C3 (amended): for every path and nonzero positive cost, the deposit adds
the same per-edge amount `depositConstant / normalizedCost` to each
consecutive edge of the path (counted with multiplicity); the divisor is
`cost` for paths of at most 1000 nodes and `cost * 0.1` for longer paths, so
the per-edge amount for a long path is exactly ten times — strictly greater
than, not less than — the amount for a short path of equal cost. -/
theorem c3_amended (dc cost : ℚ) (ph : Pheromones V) (path : List V)
    (hc : cost ≠ 0) (hdc : 0 < dc) (hpos : 0 < cost) :
    (∃ amt, depositAmount dc path.length cost = some amt
      ∧ ∃ ph2, depositPheromones dc ph path cost = some ph2
        ∧ ∀ x, lookupPhD ph2 x
            = lookupPhD ph x + amt * ((consecPairs path).count x))
    ∧ ∀ m n : ℕ, m ≤ 1000 → 1000 < n →
        ∃ aShort aLong, depositAmount dc m cost = some aShort
          ∧ depositAmount dc n cost = some aLong
          ∧ aLong = 10 * aShort ∧ aShort < aLong := by
  constructor
  · refine ⟨if 1000 < path.length then dc / (cost * (1 / 10)) else dc / cost,
      ?_, ?_⟩
    · rw [depositAmount, if_neg hc]
      split_ifs <;> rfl
    · refine ⟨_, ?_, fun x => deposit_fold _ (consecPairs path) ph x⟩
      rw [depositPheromones, depositAmount, if_neg hc]
      split_ifs <;> rfl
  · intro m n hm hn
    refine ⟨dc / cost, dc / (cost * (1 / 10)), ?_, ?_, ?_, ?_⟩
    · rw [depositAmount, if_neg hc, if_neg (by omega)]
    · rw [depositAmount, if_neg hc, if_pos hn]
    · field_simp
      ring
    · have h10 : dc / (cost * (1 / 10)) = 10 * (dc / cost) := by
        field_simp
        ring
      have hqpos : 0 < dc / cost := div_pos hdc hpos
      rw [h10]
      nlinarith

theorem c3_amended_witness :
    ((2 : ℚ) ≠ 0 ∧ (0 : ℚ) < 50 ∧ (0 : ℚ) < 2)
    ∧ (∃ amt, depositAmount 50 (["A", "B", "C"] : List String).length 2 = some amt
        ∧ ∃ ph2, depositPheromones 50 ([] : Pheromones String) ["A", "B", "C"] 2
            = some ph2
          ∧ ∀ x, lookupPhD ph2 x
              = lookupPhD ([] : Pheromones String) x
                + amt * ((consecPairs (["A", "B", "C"] : List String)).count x))
    ∧ ∀ m n : ℕ, m ≤ 1000 → 1000 < n →
        ∃ aShort aLong, depositAmount (50 : ℚ) m 2 = some aShort
          ∧ depositAmount (50 : ℚ) n 2 = some aLong
          ∧ aLong = 10 * aShort ∧ aShort < aLong := by
  have h := c3_amended (V := String) 50 2 [] ["A", "B", "C"] (by norm_num)
    (by norm_num) (by norm_num)
  exact ⟨⟨by norm_num, by norm_num, by norm_num⟩, h.1, h.2⟩

/-- C4 (amended): every value present right after an evaporation pass is at
least the floor `0.01` — the clamp of `_evaporate_pheromones` enforces the
floor, for any pheromone contents and any rate. -/
theorem c4_amended (rate : ℚ) (ph : Pheromones V) (e : V × V) (v : ℚ)
    (h : (e, v) ∈ evaporatePheromones rate ph) : 1 / 100 ≤ v := by
  rw [evaporatePheromones] at h
  rcases List.mem_map.1 h with ⟨p, _, hp⟩
  have hv : v = if p.2 * (1 - rate) < 1 / 100 then 1 / 100
      else p.2 * (1 - rate) := by
    have h2 := congrArg Prod.snd hp
    simpa using h2.symm
  rw [hv]
  split_ifs with hlt
  · exact le_refl _
  · exact not_lt.1 hlt

theorem c4_amended_witness :
    ((("A", "B"), (1 / 100 : ℚ)) ∈ evaporatePheromones (1 / 10)
      [((("A", "B") : String × String), 0)])
    ∧ (1 / 100 : ℚ) ≤ 1 / 100 := by
  have hm : ((("A", "B"), (1 / 100 : ℚ)) ∈ evaporatePheromones (1 / 10)
      [((("A", "B") : String × String), 0)]) := by
    norm_num [evaporatePheromones, List.map]
  exact ⟨hm, c4_amended (1 / 10) [((("A", "B") : String × String), 0)]
    ("A", "B") (1 / 100) hm⟩

/-! ## C10: the distances dict is keyed by tuples, never by a bare node id -/

theorem getDistanceDict_inner_pair (node1 : V) :
    ∀ (nbs : List (V × Option ℚ)) (acc : List (PKey V × PVal V)),
      (∀ k v, (k, v) ∈ acc → ∃ a b, k = PKey.pair a b) →
      ∀ k v, (k, v) ∈ nbs.foldl
          (fun acc2 nb =>
            match nb.2 with
            | some dist => acc2 ++ [(PKey.pair node1 nb.1, PVal.num dist)]
            | none => acc2) acc →
        ∃ a b, k = PKey.pair a b := by
  intro nbs
  induction nbs with
  | nil => intro acc hacc k v h; exact hacc k v h
  | cons nb rest ih =>
    intro acc hacc k v h
    rw [List.foldl_cons] at h
    refine ih _ ?_ k v h
    intro k2 v2 h2
    rcases hnb : nb.2 with _ | dist
    · rw [hnb] at h2
      exact hacc k2 v2 h2
    · rw [hnb] at h2
      rcases List.mem_append.1 h2 with h3 | h3
      · exact hacc k2 v2 h3
      · rcases List.mem_singleton.1 h3 with h4
        exact ⟨node1, nb.1, congrArg Prod.fst h4⟩

theorem getDistanceDict_pair_keys (pg : PGraph V) :
    ∀ k v, (k, v) ∈ getDistanceDict pg → ∃ a b, k = PKey.pair a b := by
  rw [getDistanceDict]
  suffices hgen : ∀ (l : PGraph V) (acc : List (PKey V × PVal V)),
      (∀ k v, (k, v) ∈ acc → ∃ a b, k = PKey.pair a b) →
      ∀ k v, (k, v) ∈ l.foldl
          (fun acc node =>
            node.2.foldl
              (fun acc2 nb =>
                match nb.2 with
                | some dist => acc2 ++ [(PKey.pair node.1 nb.1, PVal.num dist)]
                | none => acc2) acc) acc →
        ∃ a b, k = PKey.pair a b by
    exact hgen pg [] (by intro k v h; cases h)
  intro l
  induction l with
  | nil => intro acc hacc k v h; exact hacc k v h
  | cons node rest ih =>
    intro acc hacc k v h
    rw [List.foldl_cons] at h
    exact ih _ (getDistanceDict_inner_pair node.1 node.2 acc hacc) k v h

theorem alookup_mem {l : List (V × β)} {a : V} {b : β}
    (h : alookup l a = some b) : (a, b) ∈ l := by
  induction l with
  | nil => cases h
  | cons p t ih =>
    obtain ⟨k, v⟩ := p
    rw [alookup] at h
    by_cases hk : k = a
    · rw [if_pos hk] at h
      injection h with h
      subst hk
      subst h
      simp
    · rw [if_neg hk] at h
      simp [ih h]

theorem alookup_str_getDistanceDict (pg : PGraph V) (e : V) :
    alookup (getDistanceDict pg) (PKey.str e) = none := by
  rcases h : alookup (getDistanceDict pg) (PKey.str e) with _ | v
  · rfl
  · rcases getDistanceDict_pair_keys pg _ v (alookup_mem h) with ⟨a, b, hab⟩
    cases hab

theorem goalDistance_getDistanceDict (pg : PGraph V) (e n : V) :
    goalDistance (getDistanceDict pg) e n = none := by
  rw [goalDistance, alookup_str_getDistanceDict]

theorem bestLoop_zero (d : Distances V) (e : V)
    (hz : ∀ n, goalDistance d e n = none) :
    ∀ (cands : List (V × ℚ)) (acc : List V),
      bestLoop d e cands acc 0 = (acc ++ cands.map Prod.fst, 0) := by
  intro cands
  induction cands with
  | nil => intro acc; rw [bestLoop]; simp
  | cons p rest ih =>
    intro acc
    obtain ⟨n, c⟩ := p
    rw [bestLoop]
    simp only [hz n, heurVal]
    rw [if_neg (lt_irrefl 0), if_pos (by norm_num : |(0 : ℚ) - 0| < 1 / 1000000),
      ih]
    simp

theorem bestLoop_inf_start (d : Distances V) (e : V)
    (hz : ∀ n, goalDistance d e n = none) (cands : List (V × ℚ)) :
    (bestLoop d e cands [] (-1)).1 = cands.map Prod.fst := by
  cases cands with
  | nil => rfl
  | cons p rest =>
    obtain ⟨n, c⟩ := p
    rw [bestLoop]
    simp only [hz n, heurVal]
    rw [if_pos (by norm_num : (-1 : ℚ) < 0), bestLoop_zero d e hz]
    simp

/-- C10: for every distances mapping produced by `get_distance_dict` the
keys are all `(from, to)` pairs, so the ant's membership test of the bare
target id is false: the goal distance is infinite for every candidate, the
greedy selection ties all candidates of the active tier (score 0) and draws
uniformly from the whole tier, and the escape selection with unvisited
candidates draws uniformly among all of them instead of the top-3 nearest
to the goal. -/
theorem c10_tuple_keys (pg : PGraph V) (e : V) (r : ℕ) (s : AntState V)
    (avail : List (V × ℚ)) :
    memDist (getDistanceDict pg) (PKey.str e) = false
    ∧ greedySelection (getDistanceDict pg) r e s avail
        = choice r ((activeTier s avail).map Prod.fst)
    ∧ (tierUnvisited s avail ≠ [] →
        aggressiveEscape (getDistanceDict pg) r e s avail
          = choice r ((tierUnvisited s avail).map Prod.fst)) := by
  refine ⟨?_, ?_, ?_⟩
  · rw [memDist, alookup_str_getDistanceDict]
    rfl
  · rw [greedySelection,
      bestLoop_inf_start _ e (fun n => goalDistance_getDistanceDict pg e n)]
  · intro hne
    rw [aggressiveEscape,
      if_pos (by
        intro hh
        exact hne (List.map_eq_nil.1 (List.isEmpty_iff.1 hh))),
      if_neg (by rw [memDist, alookup_str_getDistanceDict]; simp)]

theorem c10_tuple_keys_witness :
    (tierUnvisited (initState "A") [("B", (1 : ℚ))] ≠ [])
    ∧ memDist (getDistanceDict [("X", [("Y", some 2)])]) (PKey.str "E") = false
    ∧ greedySelection (getDistanceDict [("X", [("Y", some 2)])]) 0 "E"
        (initState "A") [("B", (1 : ℚ))]
        = choice 0 ((activeTier (initState "A") [("B", (1 : ℚ))]).map Prod.fst)
    ∧ aggressiveEscape (getDistanceDict [("X", [("Y", some 2)])]) 0 "E"
        (initState "A") [("B", (1 : ℚ))]
        = choice 0 ((tierUnvisited (initState "A") [("B", (1 : ℚ))]).map Prod.fst) := by
  have hne : tierUnvisited (initState "A") [("B", (1 : ℚ))] ≠ [] := by
    simp [tierUnvisited, initState, List.filter]
  have h := c10_tuple_keys [("X", [("Y", some 2)])] "E" 0 (initState "A")
    [("B", (1 : ℚ))]
  exact ⟨hne, h.1, h.2.1, h.2.2 hne⟩

/-! ## C9 (amended): `run` returns `(None, inf)` iff no ant ever succeeded -/

theorem findPathLoop_ne_err (g : Graph V) (d : Distances V) (rand : ℕ → ℕ)
    (e : V) :
    ∀ (fuel step : ℕ) (s : AntState V), (alookup g s.current).isSome = true →
      findPathLoop g d rand e fuel step s ≠ FPResult.err := by
  intro fuel
  induction fuel with
  | zero => intro step s _ h; cases h
  | succ fuel ih =>
    intro step s hgc h
    rw [findPathLoop] at h
    by_cases hcur : s.current = e
    · rw [if_pos hcur] at h; cases h
    · rw [if_neg hcur] at h
      rcases hga : alookup g s.current with _ | nbrs
      · rw [hga] at hgc; cases hgc
      · rw [hga] at h
        simp only at h
        by_cases hav : ((nbrs.filter (fun p => (alookup g p.1).isSome)).isEmpty)
            = true
        · rw [if_pos hav] at h; cases h
        · rw [if_neg hav] at h
          rcases hsel : (if (policyAndExit (stagnationTrigger
                (progressTrack s.mode s.visited.length))).1 = true
              then aggressiveEscape d (rand step) e s
                (nbrs.filter (fun p => (alookup g p.1).isSome))
              else greedySelection d (rand step) e s
                (nbrs.filter (fun p => (alookup g p.1).isSome))) with _ | nxt
          · rw [hsel] at h; cases h
          · rw [hsel] at h
            dsimp only at h
            have hmemf : nxt ∈ (nbrs.filter
                (fun p => (alookup g p.1).isSome)).map Prod.fst := by
              by_cases hpe : (policyAndExit (stagnationTrigger
                  (progressTrack s.mode s.visited.length))).1 = true
              · rw [if_pos hpe] at hsel; exact escape_mem hsel
              · rw [if_neg hpe] at hsel; exact greedy_mem hsel
            rcases mem_fst_exists hmemf with ⟨cc, hcc⟩
            have hnxt_in : (alookup g nxt).isSome = true := by
              have h2 := (List.mem_filter.1 hcc).2
              simpa using h2
            rcases hlk : alookup nbrs nxt with _ | w
            · have hsome := alookup_isSome_of_mem (List.mem_filter.1 hcc).1
              rw [hlk] at hsome; cases hsome
            · rw [hlk] at h
              dsimp only at h
              exact ih (step + 1) _ hnxt_in h

theorem findPath_ne_err (g : Graph V) (d : Distances V) (rand : ℕ → ℕ)
    (start e : V) (maxSteps : ℕ)
    (hg : (alookup g start).isSome = true) :
    findPath g d rand start e maxSteps ≠ FPResult.err :=
  findPathLoop_ne_err g d rand e maxSteps 0 (initState start) hg

theorem processAnt_not_ok (g : Graph V) (d : Distances V) (start e : V)
    (depositC : ℚ) (rnd : ℕ → ℕ) (st : ColonyState V)
    (hg : (alookup g start).isSome = true)
    (hno : ¬ antOk g d rnd start e) :
    processAnt g d start e depositC rnd st = some st := by
  rw [processAnt]
  rcases hfp : findPath g d rnd start e 20000 with ⟨p, c⟩ | _ | _
  · simp only [antOk, hfp] at hno
    dsimp only
    rw [if_neg hno]
  · rfl
  · exact absurd hfp (findPath_ne_err g d rnd start e 20000 hg)

theorem processAnt_none_ok (g : Graph V) (d : Distances V) (start e : V)
    (depositC : ℚ) (rnd : ℕ → ℕ) (st : ColonyState V)
    (hg : (alookup g start).isSome = true)
    (h : processAnt g d start e depositC rnd st = none) :
    antOk g d rnd start e := by
  by_contra hno
  rw [processAnt_not_ok g d start e depositC rnd st hg hno] at h
  cases h

theorem processAnt_ok (g : Graph V) (d : Distances V) (start e : V)
    (depositC : ℚ) (rnd : ℕ → ℕ) (st : ColonyState V)
    (hwf : st.bestPath = none ↔ st.bestCost = none)
    (hok : antOk g d rnd start e) :
    processAnt g d start e depositC rnd st = none
    ∨ ∃ st2, processAnt g d start e depositC rnd st = some st2
        ∧ st2.bestPath ≠ none := by
  rw [processAnt]
  rcases hfp : findPath g d rnd start e 20000 with ⟨p, c⟩ | _ | _
  · simp only [antOk, hfp] at hok
    dsimp only
    rw [if_pos hok]
    by_cases hlt : ltBest c st.bestCost = true
    · rw [if_pos hlt]
      rcases hdep : depositPheromones depositC
          ({ st with bestPath := some p, bestCost := some c } :
            ColonyState V).pheromones p c with _ | ph1
      · exact Or.inl rfl
      · exact Or.inr ⟨_, rfl, by simp⟩
    · rw [if_neg hlt]
      have hbc : st.bestCost ≠ none := by
        intro hbn
        simp [ltBest, hbn] at hlt
      have hbp : st.bestPath ≠ none := fun hbn => hbc (hwf.1 hbn)
      rcases hdep : depositPheromones depositC st.pheromones p c with _ | ph1
      · exact Or.inl rfl
      · exact Or.inr ⟨_, rfl, by simpa using hbp⟩
  · simp only [antOk, hfp] at hok
  · simp only [antOk, hfp] at hok

theorem processAnt_wf (g : Graph V) (d : Distances V) (start e : V)
    (depositC : ℚ) (rnd : ℕ → ℕ) (st st2 : ColonyState V)
    (hwf : st.bestPath = none ↔ st.bestCost = none)
    (h : processAnt g d start e depositC rnd st = some st2) :
    st2.bestPath = none ↔ st2.bestCost = none := by
  rw [processAnt] at h
  rcases hfp : findPath g d rnd start e 20000 with ⟨p, c⟩ | _ | _ <;> rw [hfp] at h <;>
    dsimp only at h
  · by_cases hcond : p ≠ [] ∧ p.length < 10000
    · rw [if_pos hcond] at h
      by_cases hlt : ltBest c st.bestCost = true
      · rw [if_pos hlt] at h
        rcases hdep : depositPheromones depositC
            ({ st with bestPath := some p, bestCost := some c } :
              ColonyState V).pheromones p c with _ | ph1 <;> rw [hdep] at h
        · cases h
        · injection h with h
          rw [← h]
          simp
      · rw [if_neg hlt] at h
        rcases hdep : depositPheromones depositC st.pheromones p c
            with _ | ph1 <;> rw [hdep] at h
        · cases h
        · injection h with h
          rw [← h]
          simpa using hwf
    · rw [if_neg hcond] at h
      injection h with h
      rw [← h]
      exact hwf
  · injection h with h
    rw [← h]
    exact hwf
  · cases h

theorem processAnt_best_none (g : Graph V) (d : Distances V) (start e : V)
    (depositC : ℚ) (rnd : ℕ → ℕ) (st st2 : ColonyState V)
    (hg : (alookup g start).isSome = true)
    (hwf : st.bestPath = none ↔ st.bestCost = none)
    (h : processAnt g d start e depositC rnd st = some st2) :
    (st2.bestPath = none
      ↔ (st.bestPath = none ∧ ¬ antOk g d rnd start e)) := by
  by_cases hok : antOk g d rnd start e
  · rcases processAnt_ok g d start e depositC rnd st hwf hok with hnone | ⟨st3, hsome, hb⟩
    · rw [hnone] at h; cases h
    · rw [hsome] at h
      injection h with h
      subst h
      simp [hb, hok]
  · rw [processAnt_not_ok g d start e depositC rnd st hg hok] at h
    injection h with h
    subst h
    simp [hok]

theorem foldAnts_spec (g : Graph V) (d : Distances V) (start e : V)
    (depositC : ℚ) (randsA : ℕ → ℕ → ℕ)
    (hg : (alookup g start).isSome = true) :
    ∀ (L : List ℕ) (st : ColonyState V),
      (st.bestPath = none ↔ st.bestCost = none) →
      (L.foldl (fun acc a => acc.bind
          (processAnt g d start e depositC (randsA a))) (some st) = none
        → ∃ a ∈ L, antOk g d (randsA a) start e)
      ∧ ∀ st2, L.foldl (fun acc a => acc.bind
            (processAnt g d start e depositC (randsA a))) (some st) = some st2 →
          ((st2.bestPath = none ↔ st2.bestCost = none)
            ∧ (st2.bestPath = none
                ↔ (st.bestPath = none
                    ∧ ∀ a ∈ L, ¬ antOk g d (randsA a) start e))) := by
  intro L
  induction L with
  | nil =>
    intro st hwf
    constructor
    · intro h; cases h
    · intro st2 h
      rw [List.foldl_nil] at h
      injection h with h
      subst h
      exact ⟨hwf, by simp⟩
  | cons a L ih =>
    intro st hwf
    have hfold_none : ∀ (M : List ℕ), M.foldl (fun acc a => acc.bind
        (processAnt g d start e depositC (randsA a))) none = none := by
      intro M
      induction M with
      | nil => rfl
      | cons b M ihM => rw [List.foldl_cons]; exact ihM
    rcases hpa : processAnt g d start e depositC (randsA a) st with _ | st1
    · constructor
      · intro _
        exact ⟨a, by simp, processAnt_none_ok g d start e depositC
          (randsA a) st hg hpa⟩
      · intro st2 h
        rw [List.foldl_cons, Option.some_bind, hpa, hfold_none] at h
        cases h
    · have hwf1 := processAnt_wf g d start e depositC (randsA a) st st1 hwf hpa
      have ihL := ih st1 hwf1
      constructor
      · intro h
        rw [List.foldl_cons, Option.some_bind, hpa] at h
        rcases ihL.1 h with ⟨b, hb, hok⟩
        exact ⟨b, by simp [hb], hok⟩
      · intro st2 h
        rw [List.foldl_cons, Option.some_bind, hpa] at h
        rcases ihL.2 st2 h with ⟨hwf2, hiff⟩
        refine ⟨hwf2, ?_⟩
        rw [hiff, processAnt_best_none g d start e depositC (randsA a) st st1
          hg hwf hpa]
        constructor
        · rintro ⟨⟨hb, hna⟩, hall⟩
          refine ⟨hb, ?_⟩
          intro b hbmem
          rcases List.mem_cons.1 hbmem with rfl | hbm
          · exact hna
          · exact hall b hbm
        · rintro ⟨hb, hall⟩
          exact ⟨⟨hb, hall a (by simp)⟩, fun b hbm => hall b (by simp [hbm])⟩

theorem runLoop_iff (g : Graph V) (d : Distances V) (start e : V)
    (depositC evapRate : ℚ) (rands : ℕ → ℕ → ℕ → ℕ) (numAnts : ℕ)
    (hg : (alookup g start).isSome = true) :
    ∀ (k i : ℕ) (st : ColonyState V),
      (st.bestPath = none ↔ st.bestCost = none) →
      (runLoop g d start e depositC evapRate rands numAnts k i st
          = some (none, none)
        ↔ (st.bestPath = none
            ∧ ∀ j, i ≤ j → j < i + k → ∀ a, a < numAnts →
                ¬ antOk g d (rands j a) start e)) := by
  intro k
  induction k with
  | zero =>
    intro i st hwf
    rw [runLoop]
    simp only [Option.some.injEq, Prod.mk.injEq]
    constructor
    · rintro ⟨h1, _⟩
      exact ⟨h1, by intro j hj1 hj2; omega⟩
    · rintro ⟨h1, _⟩
      exact ⟨h1, hwf.1 h1⟩
  | succ k ihk =>
    intro i st hwf
    rw [runLoop]
    rcases hit : runIteration g d start e depositC (rands i) numAnts st
        with _ | st1
    · dsimp only
      rcases (foldAnts_spec g d start e depositC (rands i) hg
          (List.range numAnts) st hwf).1 hit with ⟨a, ha, hok⟩
      constructor
      · intro h; cases h
      · rintro ⟨_, hall⟩
        exact absurd hok
          (hall i (le_refl i) (by omega) a (List.mem_range.1 ha))
    · dsimp only
      have hspec := (foldAnts_spec g d start e depositC (rands i) hg
          (List.range numAnts) st hwf).2 st1 hit
      by_cases hex : earlyExit st1.bestPath = true
      · rw [if_pos hex]
        have hb : st1.bestPath ≠ none := by
          intro hbn
          simp only [earlyExit, hbn] at hex
          exact absurd hex (by decide)
        constructor
        · intro h
          injection h with h
          exact absurd (by simpa using congrArg Prod.fst h) hb
        · rintro ⟨hbn, hall⟩
          exact absurd (hspec.2.2 ⟨hbn, fun a ha =>
            hall i (le_refl i) (by omega) a (List.mem_range.1 ha)⟩) hb
      · rw [if_neg hex]
        rw [ihk (i + 1) _ (by simpa using hspec.1)]
        constructor
        · rintro ⟨hb2, hall2⟩
          have hb1 : st1.bestPath = none := by simpa using hb2
          rcases hspec.2.1 hb1 with ⟨hbst, hfails⟩
          refine ⟨hbst, ?_⟩
          intro j hj1 hj2 a ha
          by_cases hji : j = i
          · subst hji
            exact hfails a (List.mem_range.2 ha)
          · exact hall2 j (by omega) (by omega) a ha
        · rintro ⟨hbst, hall⟩
          have hb1 : st1.bestPath = none := hspec.2.2
            ⟨hbst, fun a ha => hall i (le_refl i) (by omega) a
              (List.mem_range.1 ha)⟩
          exact ⟨by simpa using hb1,
            fun j hj1 hj2 a ha => hall j (by omega) (by omega) a ha⟩

/-- C9 (amended): provided the start node is present in the graph, `run`
returns `(None, inf)` exactly when no ant of any iteration produced a
successful path under the length sanity ceiling — in particular an
unreachable target makes every ant fail and `run` returns `(None, inf)`
after the full iteration budget, without raising. -/
theorem c9_amended (g : Graph V) (d : Distances V) (numAnts numIter : ℕ)
    (evapRate depositC : ℚ) (rands : ℕ → ℕ → ℕ → ℕ) (start e : V)
    (hg : (alookup g start).isSome = true) :
    runACO g d numAnts numIter evapRate depositC rands start e
        = some (none, none)
      ↔ ∀ i, i < numIter → ∀ a, a < numAnts →
          ¬ antSucceeds g d rands start e i a := by
  rw [runACO, runLoop_iff g d start e depositC evapRate rands numAnts hg
    numIter 0 _ (by simp)]
  simp only [antSucceeds]
  constructor
  · rintro ⟨_, hall⟩ i hi a ha
    exact hall i (by omega) (by omega) a ha
  · intro hall
    exact ⟨trivial, fun j hj1 hj2 a ha => hall j (by omega) a ha⟩

theorem c9_amended_witness :
    (alookup exGraphIsolatedA "A").isSome = true
    ∧ runACO exGraphIsolatedA [] 1 1 (1 / 10) 50 rands0 "A" "B"
        = some (none, none) := by
  refine ⟨by decide, ?_⟩
  refine (c9_amended exGraphIsolatedA [] 1 1 (1 / 10) 50 rands0 "A" "B"
    (by decide)).mpr ?_
  intro i _ a _
  simp only [antSucceeds, antOk]
  rw [show rands0 i a = rand0 from rfl]
  rw [show findPath exGraphIsolatedA [] rand0 "A" "B" 20000 = FPResult.nopath
    from by decide]
  simp

theorem c7_mode_machine_witness :
    (100 : ℕ) < 101
    ∧ ((policyAndExit (stagnationTrigger
          (progressTrack ⟨101, 5, true, 50⟩ 5))).2.escapeMode = false
        ↔ ((5 : ℕ) ≠ 5
            ∨ 200 ≤ (stagnationTrigger (progressTrack ⟨101, 5, true, 50⟩ 5)).escapeSteps)) :=
  ⟨by decide, (c7_mode_machine ⟨101, 5, true, 50⟩ 5).2.2 rfl (by decide)⟩

end ACO

